import Mathlib

/-!
Verification of the `lib_path_tree` core (`src/lib_path_tree/lib_path_tree.py`).

The development shallowly embeds the library: filesystem paths are modelled as
lists of name segments of an absolute, resolved path; a directory's contents
are modelled by the nested inductive `Entry`; the glob matching of Python's
`fnmatch` module is implemented directly on character lists; the stateful
operations (`remove_empty_folders_recursive`, `remove_folders_recursive_fnmatch`)
are modelled as explicit state passing over the entry tree, and the per-object
copy primitive is modelled by the list of filesystem actions it performs.
-/

namespace LibPathTree

/-- A filesystem path, as the list of its name segments.  This models an
absolute, `resolve()`d `pathlib.Path`: `[]` is the root `/`, `["a", "b"]` is
`/a/b`.  Paths are compared by their normalized segment lists. -/
abbrev Path := List String

/-- The string rendering of an absolute path, as produced by `str(path)` on a
resolved `pathlib.Path` (POSIX convention). -/
def pathStr : Path → String
  | [] => "/"
  | [x] => "/" ++ x
  | x :: xs => "/" ++ x ++ pathStr xs

/-! ### Python `fnmatch` glob matching

`fnmatch.fnmatch(name, pattern)` on a POSIX system matches `name` against the
shell pattern `pattern`: `*` matches any run of characters, `?` any single
character, `[seq]` a character of the set (with `!` negation, a literal `]`
first, and `a-b` ranges); an unterminated `[` is a literal `[`. -/

/-- Scan the characters of a bracket expression after the opening `[` (and
after a leading `!` or literal `]` has been handled): collect the set
characters until the closing `]`; `none` when the bracket is unterminated. -/
def scanBracket : List Char → List Char → Option (List Char × List Char)
  | [], _ => none
  | c :: t, acc => if c = ']' then some (acc.reverse, t) else scanBracket t (c :: acc)

/-- Parse a bracket expression: from the characters following `[`, return
(negated?, set characters, remaining pattern), or `none` when there is no
closing `]` (in which case `[` is a literal). -/
def bracketSpan : List Char → Option (Bool × List Char × List Char)
  | '!' :: ']' :: t => (scanBracket t [']']).map (fun r => (true, r.1, r.2))
  | '!' :: t => (scanBracket t []).map (fun r => (true, r.1, r.2))
  | ']' :: t => (scanBracket t [']']).map (fun r => (false, r.1, r.2))
  | t => (scanBracket t []).map (fun r => (false, r.1, r.2))

/-- Membership of a character in a bracket set, with `a-b` ranges (an empty
range such as `z-a` matches nothing, as in Python's translation). -/
def inBracket : List Char → Char → Bool
  | a :: '-' :: b :: rest, c => (decide (a ≤ c) && decide (c ≤ b)) || inBracket rest c
  | a :: rest, c => (a == c) || inBracket rest c
  | [], _ => false

theorem scanBracket_rest_lt :
    ∀ (ps acc set rest : List Char), scanBracket ps acc = some (set, rest) →
      rest.length < ps.length := by
  intro ps
  induction ps with
  | nil => intro acc set rest h; simp [scanBracket] at h
  | cons c t ih =>
    intro acc set rest h
    rw [scanBracket] at h
    by_cases hc : c = ']'
    · rw [if_pos hc] at h
      simp only [Option.some.injEq, Prod.mk.injEq] at h
      simp [← h.2]
    · rw [if_neg hc] at h
      exact Nat.lt_succ_of_lt (ih _ _ _ h)

theorem bracketSpan_rest_lt :
    ∀ (ps : List Char) (neg : Bool) (set rest : List Char),
      bracketSpan ps = some (neg, set, rest) → rest.length < ps.length := by
  intro ps neg set rest h
  unfold bracketSpan at h
  split at h <;>
    · rw [Option.map_eq_some'] at h
      obtain ⟨⟨s₀, r₀⟩, hscan, heq⟩ := h
      cases heq
      have := scanBracket_rest_lt _ _ _ _ hscan
      simp only [List.length_cons] at *
      omega

/-- The glob matching recursion, with an explicit fuel argument so that the
function is structurally recursive (and hence computable by the kernel).  Any
fuel above `pattern.length + name.length` is sufficient. -/
def globMatchF : Nat → List Char → List Char → Bool
  | 0, _, _ => false
  | _ + 1, [], [] => true
  | _ + 1, [], _ :: _ => false
  | fuel + 1, '*' :: ps, [] => globMatchF fuel ps []
  | fuel + 1, '*' :: ps, c :: s => globMatchF fuel ps (c :: s) || globMatchF fuel ('*' :: ps) s
  | _ + 1, '?' :: _, [] => false
  | fuel + 1, '?' :: ps, _ :: s => globMatchF fuel ps s
  | fuel + 1, '[' :: ps, s =>
      match bracketSpan ps with
      | some (neg, set, rest) =>
          match s with
          | [] => false
          | c :: s' => (inBracket set c != neg) && globMatchF fuel rest s'
      | none =>
          match s with
          | c :: s' => if c = '[' then globMatchF fuel ps s' else false
          | [] => false
  | _ + 1, _ :: _, [] => false
  | fuel + 1, p :: ps, c :: s => (p == c) && globMatchF fuel ps s

/-- The glob matcher: `globMatch pattern name` decides whether `name` matches
the shell `pattern`, following Python's `fnmatch.translate` semantics. -/
def globMatch (ps s : List Char) : Bool :=
  globMatchF (ps.length + s.length + 1) ps s

/-- Any sufficient fuel computes the same answer. -/
theorem globMatchF_fuel :
    ∀ (f₁ : Nat) (ps s : List Char) (f₂ : Nat), ps.length + s.length < f₁ →
      ps.length + s.length < f₂ → globMatchF f₁ ps s = globMatchF f₂ ps s := by
  intro f₁ ps s
  induction f₁, ps, s using globMatchF.induct with
  | case1 => omega
  | case2 g₁ =>
    intro f₂ h₁ h₂
    obtain ⟨g₂, rfl⟩ : ∃ g₂, f₂ = g₂ + 1 := ⟨f₂ - 1, by omega⟩
    rfl
  | case3 g₁ c s =>
    intro f₂ h₁ h₂
    obtain ⟨g₂, rfl⟩ : ∃ g₂, f₂ = g₂ + 1 := ⟨f₂ - 1, by omega⟩
    rfl
  | case4 g₁ ps ih =>
    intro f₂ h₁ h₂
    obtain ⟨g₂, rfl⟩ : ∃ g₂, f₂ = g₂ + 1 := ⟨f₂ - 1, by omega⟩
    simp only [globMatchF]
    exact ih g₂ (by simp at h₁ ⊢; omega) (by simp at h₂ ⊢; omega)
  | case5 g₁ ps c s ih₁ ih₂ =>
    intro f₂ h₁ h₂
    obtain ⟨g₂, rfl⟩ : ∃ g₂, f₂ = g₂ + 1 := ⟨f₂ - 1, by omega⟩
    simp only [globMatchF]
    rw [ih₁ g₂ (by simp at h₁ ⊢; omega) (by simp at h₂ ⊢; omega),
      ih₂ g₂ (by simp at h₁ ⊢; omega) (by simp at h₂ ⊢; omega)]
  | case6 g₁ ps =>
    intro f₂ h₁ h₂
    obtain ⟨g₂, rfl⟩ : ∃ g₂, f₂ = g₂ + 1 := ⟨f₂ - 1, by omega⟩
    rfl
  | case7 g₁ ps c s ih =>
    intro f₂ h₁ h₂
    obtain ⟨g₂, rfl⟩ : ∃ g₂, f₂ = g₂ + 1 := ⟨f₂ - 1, by omega⟩
    simp only [globMatchF]
    exact ih g₂ (by simp at h₁ ⊢; omega) (by simp at h₂ ⊢; omega)
  | case8 g₁ ps neg set rest hbs =>
    intro f₂ h₁ h₂
    obtain ⟨g₂, rfl⟩ : ∃ g₂, f₂ = g₂ + 1 := ⟨f₂ - 1, by omega⟩
    simp [globMatchF, hbs]
  | case9 g₁ ps neg set rest hbs c s' ih =>
    intro f₂ h₁ h₂
    obtain ⟨g₂, rfl⟩ : ∃ g₂, f₂ = g₂ + 1 := ⟨f₂ - 1, by omega⟩
    have hr := bracketSpan_rest_lt _ _ _ _ hbs
    simp only [globMatchF, hbs]
    rw [ih g₂ (by simp at h₁ ⊢; omega) (by simp at h₂ ⊢; omega)]
  | case10 g₁ ps hbs s' ih =>
    intro f₂ h₁ h₂
    obtain ⟨g₂, rfl⟩ : ∃ g₂, f₂ = g₂ + 1 := ⟨f₂ - 1, by omega⟩
    simp only [globMatchF, hbs, if_pos rfl]
    rw [ih g₂ (by simp at h₁ ⊢; omega) (by simp at h₂ ⊢; omega)]
  | case11 g₁ ps hbs c s' hc =>
    intro f₂ h₁ h₂
    obtain ⟨g₂, rfl⟩ : ∃ g₂, f₂ = g₂ + 1 := ⟨f₂ - 1, by omega⟩
    simp [globMatchF, hbs, hc]
  | case12 g₁ ps hbs =>
    intro f₂ h₁ h₂
    obtain ⟨g₂, rfl⟩ : ∃ g₂, f₂ = g₂ + 1 := ⟨f₂ - 1, by omega⟩
    simp [globMatchF, hbs]
  | case13 g₁ p ps h₁' h₂' h₃' =>
    intro f₂ h₁ h₂
    obtain ⟨g₂, rfl⟩ : ∃ g₂, f₂ = g₂ + 1 := ⟨f₂ - 1, by omega⟩
    simp [globMatchF, h₁', h₂', h₃']
  | case14 g₁ p ps c s h₁' h₂' h₃' ih =>
    intro f₂ h₁ h₂
    obtain ⟨g₂, rfl⟩ : ∃ g₂, f₂ = g₂ + 1 := ⟨f₂ - 1, by omega⟩
    simp only [globMatchF, h₁', h₂', h₃']
    rw [ih g₂ (by simp at h₁ ⊢; omega) (by simp at h₂ ⊢; omega)]

/-- Model of `fnmatch.fnmatch(name, pattern)` (POSIX: `normcase` is the
identity, so this is `fnmatchcase`). -/
def fnmatch (name pattern : String) : Bool :=
  globMatch pattern.data name.data

/-- A `*` pattern matches every string. -/
theorem globMatch_star (s : List Char) : globMatch ['*'] s = true := by
  induction s with
  | nil => rfl
  | cons c t ih =>
    have hunf : globMatch ['*'] (c :: t) =
        (globMatchF (1 + (t.length + 1)) [] (c :: t) ||
          globMatchF (1 + (t.length + 1)) ['*'] t) := rfl
    have heq : globMatchF (1 + (t.length + 1)) ['*'] t = globMatch ['*'] t := by
      have := globMatchF_fuel (1 + (t.length + 1)) ['*'] t (['*'].length + t.length + 1)
        (by simp) (by simp)
      rw [this]; rfl
    rw [hunf, heq, ih, Bool.or_true]

theorem fnmatch_star (s : String) : fnmatch s "*" = true := by
  have : ("*" : String).data = ['*'] := rfl
  rw [fnmatch, this, globMatch_star]

/-! ### The pattern filter (`filter_path_objects_fnmatch`) -/

/-- Model of `lib_parameter.get_default_if_none`: replace a `None` argument
with the given default. -/
def get_default_if_none {α : Type} (value : Option α) (default : α) : α :=
  value.getD default

/-- Model of `does_path_fnmatch_patterns`: `True` iff the path matches at
least one of the given patterns (the Python loop over `fnmatch.fnmatch`). -/
def does_path_fnmatch_patterns (path : Path) (patterns_fn_match : List String) : Bool :=
  patterns_fn_match.any (fun pattern => fnmatch (pathStr path) pattern)

/-- Model of `filter_path_objects_fnmatch`: keep the paths that match the
match patterns (default `['*']` when the argument is `None`) and do not match
the unmatch patterns (default `[]` when the argument is `None`).  The Python
generator yields exactly the paths kept by this filter, in order. -/
def filter_path_objects_fnmatch (paths : List Path)
    (patterns_fn_match patterns_fn_unmatch : Option (List String)) : List Path :=
  let pm := get_default_if_none patterns_fn_match ["*"]
  let pu := get_default_if_none patterns_fn_unmatch []
  paths.filter fun path =>
    does_path_fnmatch_patterns path pm && ! does_path_fnmatch_patterns path pu

/-! ### The path rewriter used by `copy_tree_fnmatch` -/

/-- Model of Python `s.replace(old, new, 1)` on character lists: replace the
first (leftmost) occurrence of `old` in `s` by `new`; when `old` does not
occur, return `s` unchanged. -/
def replaceFirstCL (s old new : List Char) : List Char :=
  if old.isPrefixOf s then new ++ s.drop old.length
  else
    match s with
    | [] => []
    | c :: t => c :: replaceFirstCL t old new

/-- Model of Python `s.replace(old, new, 1)` on strings. -/
def strReplaceFirst (s old new : String) : String :=
  ⟨replaceFirstCL s.data old.data new.data⟩

/-- The target-path computation of `copy_tree_fnmatch`
(`str(path_source).replace(str(path_source_dir), str(path_target_dir), 1)`). -/
def copy_tree_target_path (path_source path_source_dir path_target_dir : String) : String :=
  strReplaceFirst path_source path_source_dir path_target_dir

/-! ### The per-object copy primitive (`copy_path_object_with_metadata`) -/

/-- The filesystem actions that `copy_path_object_with_metadata` can perform,
in order: `mkdirParents p` is `pathlib3x.Path(p).mkdir(parents=True,
exist_ok=True)`, `copyStat` is `copy_metadata_of_path_object` (a best-effort
`shutil.copystat`), `copyFile` is `shutil.copy2`. -/
inductive FsAction : Type where
  | mkdirParents (target : Path)
  | copyStat (source target : Path)
  | copyFile (source target : Path)
deriving DecidableEq

/-- Model of `copy_path_object_with_metadata`, as the list of filesystem
actions it performs: for a directory source it creates the target directory
and copies its metadata only when `copy_empty_directories` is set; for a file
source it creates the target's parent directories and copies the file. -/
def copy_path_object_with_metadata (source_is_dir : Bool)
    (path_source path_target : Path) (copy_empty_directories : Bool) : List FsAction :=
  if source_is_dir then
    if copy_empty_directories then
      [FsAction.mkdirParents path_target, FsAction.copyStat path_source path_target]
    else []
  else
    [FsAction.mkdirParents path_target.dropLast, FsAction.copyFile path_source path_target]

/-! ### Directory trees and the path enumerators

The contents of a directory are modelled by the nested inductive `Entry`; the
base directory of an operation is given by its absolute path (`root : Path`)
together with its contents (`es : List Entry`). -/

/-- A directory entry: a file, or a subdirectory with its own contents. -/
inductive Entry : Type where
  | file (name : String)
  | dir (name : String) (entries : List Entry)

mutual

/-- Boolean equality of entries. -/
def entryBEq : Entry → Entry → Bool
  | .file n, .file m => n == m
  | .dir n es, .dir m fs => (n == m) && entriesBEq es fs
  | _, _ => false

/-- Boolean equality of directory listings. -/
def entriesBEq : List Entry → List Entry → Bool
  | [], [] => true
  | e :: es, f :: fs => entryBEq e f && entriesBEq es fs
  | _, _ => false

end

mutual

theorem entryBEq_iff : ∀ a b : Entry, entryBEq a b = true ↔ a = b
  | .file n, .file m => by simp [entryBEq]
  | .file n, .dir m fs => by simp [entryBEq]
  | .dir n es, .file m => by simp [entryBEq]
  | .dir n es, .dir m fs => by
    simp [entryBEq, entriesBEq_iff es fs, and_comm]

theorem entriesBEq_iff : ∀ es fs : List Entry, entriesBEq es fs = true ↔ es = fs
  | [], [] => by simp [entriesBEq]
  | [], f :: fs => by simp [entriesBEq]
  | e :: es, [] => by simp [entriesBEq]
  | e :: es, f :: fs => by
    simp [entriesBEq, entryBEq_iff e f, entriesBEq_iff es fs]

end

instance : DecidableEq Entry := fun a b => decidable_of_iff _ (entryBEq_iff a b)

/-- The name of an entry. -/
def entryName : Entry → String
  | .file n => n
  | .dir n _ => n

/-- Whether an entry is a subdirectory. -/
def isDirEntry : Entry → Bool
  | .file _ => false
  | .dir _ _ => true

/-- The subdirectory names of a directory listing, in order (the `dirs`
component of an `os.walk` triple). -/
def dirNames (es : List Entry) : List String :=
  es.filterMap fun e => match e with | .dir n _ => some n | .file _ => none

/-- The file names of a directory listing, in order (the `files` component of
an `os.walk` triple). -/
def fileNames (es : List Entry) : List String :=
  es.filterMap fun e => match e with | .file n => some n | .dir _ _ => none

/-- One `os.walk` triple: a directory's path, its subdirectory names and its
file names. -/
abbrev WalkTriple := Path × List String × List String

mutual

/-- The `os.walk(..., topdown=False)` triples contributed by one entry of the
directory at path `p`: nothing for a file; for a subdirectory, the triples of
its subtree (bottom-up) followed by its own triple. -/
def walkEntry (p : Path) : Entry → List WalkTriple
  | .file _ => []
  | .dir n es => walkEntries (p ++ [n]) es ++ [(p ++ [n], dirNames es, fileNames es)]

/-- The `os.walk(..., topdown=False)` triples contributed by a directory
listing, in listing order. -/
def walkEntries (p : Path) : List Entry → List WalkTriple
  | [] => []
  | e :: es => walkEntry p e ++ walkEntries p es

end

/-- Model of `os.walk(str(base), topdown=False)` on the directory at `root`
with contents `es`: all triples of the subtree, bottom-up, ending with the
base directory's own triple. -/
def osWalk (root : Path) (es : List Entry) : List WalkTriple :=
  walkEntries root es ++ [(root, dirNames es, fileNames es)]

/-- The subdirectory paths contributed by one walk triple
(`pathlib.Path(root) / s_dir`). -/
def tripleDirPaths (t : WalkTriple) : List Path :=
  t.2.1.map fun n => t.1 ++ [n]

/-- The file paths contributed by one walk triple
(`pathlib.Path(root) / name`). -/
def tripleFilePaths (t : WalkTriple) : List Path :=
  t.2.2.map fun n => t.1 ++ [n]

/-- The paths yielded for one walk triple by `get_path_recursive`:
directories first, then files. -/
def triplePaths (t : WalkTriple) : List Path :=
  tripleDirPaths t ++ tripleFilePaths t

/-- Model of `get_path_recursive`: yield the base directory, then for each
`os.walk` triple its directories and then its files. -/
def get_path_recursive (root : Path) (es : List Entry) : List Path :=
  root :: (osWalk root es).flatMap triplePaths

/-- Model of `get_tree_dirs`: yield the base directory, then for each
`os.walk` triple its directories. -/
def get_tree_dirs (root : Path) (es : List Entry) : List Path :=
  root :: (osWalk root es).flatMap tripleDirPaths

/-- Model of `get_tree_files`: for each `os.walk` triple, its files. -/
def get_tree_files (root : Path) (es : List Entry) : List Path :=
  (osWalk root es).flatMap tripleFilePaths

/-- Model of `get_tree_path_fnmatch`: enumerate everything under the base
directory (itself included) and filter by the patterns. -/
def get_tree_path_fnmatch (root : Path) (es : List Entry)
    (patterns_fn_match patterns_fn_unmatch : Option (List String)) : List Path :=
  filter_path_objects_fnmatch (get_path_recursive root es)
    patterns_fn_match patterns_fn_unmatch

/-- Model of `get_tree_dirs_fnmatch`: enumerate the directories under the
base directory (itself included) and filter by the patterns. -/
def get_tree_dirs_fnmatch (root : Path) (es : List Entry)
    (patterns_fn_match patterns_fn_unmatch : Option (List String)) : List Path :=
  filter_path_objects_fnmatch (get_tree_dirs root es)
    patterns_fn_match patterns_fn_unmatch

/-! ### Specification-side path enumerations

These definitions follow the specification's words — "every file and every
directory under the root" — by direct recursion over the tree; the claims
compare the walk-based enumerators of the source against them. -/

mutual

/-- Every path (the entry itself and, for a directory, everything below it)
contributed by one entry of the directory at `p`. -/
def entryPaths (p : Path) : Entry → List Path
  | .file n => [p ++ [n]]
  | .dir n es => (p ++ [n]) :: entriesPaths (p ++ [n]) es

/-- Every path contributed by a directory listing. -/
def entriesPaths (p : Path) : List Entry → List Path
  | [] => []
  | e :: es => entryPaths p e ++ entriesPaths p es

end

/-- Every file and every directory under the root, the root included. -/
def treePaths (root : Path) (es : List Entry) : List Path :=
  root :: entriesPaths root es

mutual

/-- Every directory path contributed by one entry. -/
def entryDirPaths (p : Path) : Entry → List Path
  | .file _ => []
  | .dir n es => (p ++ [n]) :: entriesDirPaths (p ++ [n]) es

/-- Every directory path contributed by a directory listing. -/
def entriesDirPaths (p : Path) : List Entry → List Path
  | [] => []
  | e :: es => entryDirPaths p e ++ entriesDirPaths p es

end

/-- Every directory under the root, the root included. -/
def treeDirPaths (root : Path) (es : List Entry) : List Path :=
  root :: entriesDirPaths root es

mutual

/-- Every file path contributed by one entry. -/
def entryFilePaths (p : Path) : Entry → List Path
  | .file n => [p ++ [n]]
  | .dir n es => entriesFilePaths (p ++ [n]) es

/-- Every file path contributed by a directory listing. -/
def entriesFilePaths (p : Path) : List Entry → List Path
  | [] => []
  | e :: es => entryFilePaths p e ++ entriesFilePaths p es

end

/-- Every file under the root. -/
def treeFilePaths (root : Path) (es : List Entry) : List Path :=
  entriesFilePaths root es

/-! ### Well-formed directory contents

A real directory listing has distinct, nonempty entry names; this is the
invariant the filesystem itself guarantees. -/

/-- The names of a directory listing, in order. -/
def entryNames (es : List Entry) : List String :=
  es.map entryName

mutual

/-- Well-formedness of one entry: its name is nonempty and its contents (for
a directory) are well formed. -/
def wfEntry : Entry → Bool
  | .file n => n != ""
  | .dir n es => (n != "") && wfEntries es

/-- Well-formedness of a directory listing: all entries well formed and the
names pairwise distinct. -/
def wfEntries : List Entry → Bool
  | [] => true
  | e :: es => wfEntry e && !((entryNames es).contains (entryName e)) && wfEntries es

end

/-! ### The walk-based enumerators are permutations of the tree enumerations -/

mutual

theorem walkEntry_perm (p : Path) (e : Entry) :
    ((walkEntry p e).flatMap triplePaths ++ [p ++ [entryName e]]).Perm (entryPaths p e) := by
  cases e with
  | file n => simp [walkEntry, entryPaths, entryName]
  | dir n es =>
    have ih := walkEntries_perm (p ++ [n]) es
    rw [← Multiset.coe_eq_coe] at ih ⊢
    simp only [walkEntry, entryPaths, entryName, triplePaths, tripleDirPaths, tripleFilePaths,
      List.flatMap_append, List.flatMap_cons, List.flatMap_nil, List.append_nil,
      ← Multiset.coe_add, ← Multiset.cons_coe, ← Multiset.singleton_add,
      Multiset.coe_nil] at ih ⊢
    rw [← ih]
    try abel

theorem walkEntries_perm (p : Path) (es : List Entry) :
    ((walkEntries p es).flatMap triplePaths
      ++ (dirNames es).map (fun n => p ++ [n])
      ++ (fileNames es).map (fun n => p ++ [n])).Perm (entriesPaths p es) := by
  cases es with
  | nil => simp [walkEntries, entriesPaths, dirNames, fileNames]
  | cons e es =>
    have ihe := walkEntry_perm p e
    have ih := walkEntries_perm p es
    rw [← Multiset.coe_eq_coe] at ihe ih ⊢
    cases e with
    | file n =>
      simp only [walkEntries, entriesPaths, entryPaths, walkEntry, entryName, dirNames,
        fileNames, List.filterMap_cons, List.flatMap_append, List.flatMap_nil,
        List.nil_append, List.map_cons,
        ← Multiset.coe_add, ← Multiset.cons_coe, ← Multiset.singleton_add,
        Multiset.coe_nil] at ih ⊢
      rw [← ih]
      try abel
    | dir n es' =>
      simp only [walkEntries, entriesPaths, entryPaths, entryName, dirNames,
        fileNames, List.filterMap_cons, List.flatMap_append, List.flatMap_nil,
        List.nil_append, List.map_cons,
        ← Multiset.coe_add, ← Multiset.cons_coe, ← Multiset.singleton_add,
        Multiset.coe_nil] at ihe ih ⊢
      rw [← ih, ← ihe]
      abel

end

theorem get_path_recursive_perm (root : Path) (es : List Entry) :
    (get_path_recursive root es).Perm (treePaths root es) := by
  have ih := walkEntries_perm root es
  rw [← Multiset.coe_eq_coe] at ih ⊢
  simp only [get_path_recursive, treePaths, osWalk, triplePaths, tripleDirPaths,
    tripleFilePaths, List.flatMap_append, List.flatMap_cons, List.flatMap_nil,
    List.append_nil, ← Multiset.coe_add, ← Multiset.cons_coe, ← Multiset.singleton_add,
    Multiset.coe_nil] at ih ⊢
  rw [← ih]
  try abel

mutual

theorem walkEntryDirs_perm (p : Path) (e : Entry) :
    ((walkEntry p e).flatMap tripleDirPaths
      ++ (dirNames [e]).map (fun n => p ++ [n])).Perm (entryDirPaths p e) := by
  cases e with
  | file n => simp [walkEntry, entryDirPaths, dirNames]
  | dir n es =>
    have ih := walkEntriesDirs_perm (p ++ [n]) es
    rw [← Multiset.coe_eq_coe] at ih ⊢
    simp only [walkEntry, entryDirPaths, dirNames, List.filterMap_cons, List.filterMap_nil,
      tripleDirPaths, List.flatMap_append, List.flatMap_cons, List.flatMap_nil,
      List.append_nil, List.map_cons, List.map_nil,
      ← Multiset.coe_add, ← Multiset.cons_coe, ← Multiset.singleton_add,
      Multiset.coe_nil] at ih ⊢
    rw [← ih]
    try abel

theorem walkEntriesDirs_perm (p : Path) (es : List Entry) :
    ((walkEntries p es).flatMap tripleDirPaths
      ++ (dirNames es).map (fun n => p ++ [n])).Perm (entriesDirPaths p es) := by
  cases es with
  | nil => simp [walkEntries, entriesDirPaths, dirNames]
  | cons e es =>
    have ihe := walkEntryDirs_perm p e
    have ih := walkEntriesDirs_perm p es
    rw [← Multiset.coe_eq_coe] at ihe ih ⊢
    cases e with
    | file n =>
      simp only [walkEntries, entriesDirPaths, entryDirPaths, walkEntry, dirNames,
        List.filterMap_cons, List.filterMap_nil, List.flatMap_append, List.flatMap_nil,
        List.nil_append, List.map_cons, List.map_nil,
        ← Multiset.coe_add, ← Multiset.cons_coe, ← Multiset.singleton_add,
        Multiset.coe_nil] at ihe ih ⊢
      rw [← ih]
      try abel
    | dir n es' =>
      simp only [walkEntries, entriesDirPaths, entryDirPaths, dirNames,
        List.filterMap_cons, List.filterMap_nil, List.flatMap_append, List.flatMap_nil,
        List.nil_append, List.map_cons, List.map_nil,
        ← Multiset.coe_add, ← Multiset.cons_coe, ← Multiset.singleton_add,
        Multiset.coe_nil] at ihe ih ⊢
      rw [← ih, ← ihe]
      abel

end

theorem get_tree_dirs_perm (root : Path) (es : List Entry) :
    (get_tree_dirs root es).Perm (treeDirPaths root es) := by
  have ih := walkEntriesDirs_perm root es
  rw [← Multiset.coe_eq_coe] at ih ⊢
  simp only [get_tree_dirs, treeDirPaths, osWalk, tripleDirPaths,
    List.flatMap_append, List.flatMap_cons, List.flatMap_nil, List.append_nil,
    ← Multiset.coe_add, ← Multiset.cons_coe, ← Multiset.singleton_add,
    Multiset.coe_nil] at ih ⊢
  rw [← ih]
  try abel

mutual

theorem walkEntryFiles_perm (p : Path) (e : Entry) :
    ((walkEntry p e).flatMap tripleFilePaths
      ++ (fileNames [e]).map (fun n => p ++ [n])).Perm (entryFilePaths p e) := by
  cases e with
  | file n => simp [walkEntry, entryFilePaths, fileNames]
  | dir n es =>
    have ih := walkEntriesFiles_perm (p ++ [n]) es
    rw [← Multiset.coe_eq_coe] at ih ⊢
    simp only [walkEntry, entryFilePaths, fileNames, List.filterMap_cons, List.filterMap_nil,
      tripleFilePaths, List.flatMap_append, List.flatMap_cons, List.flatMap_nil,
      List.append_nil, List.map_cons, List.map_nil,
      ← Multiset.coe_add, ← Multiset.cons_coe, ← Multiset.singleton_add,
      Multiset.coe_nil] at ih ⊢
    rw [← ih]
    try abel

theorem walkEntriesFiles_perm (p : Path) (es : List Entry) :
    ((walkEntries p es).flatMap tripleFilePaths
      ++ (fileNames es).map (fun n => p ++ [n])).Perm (entriesFilePaths p es) := by
  cases es with
  | nil => simp [walkEntries, entriesFilePaths, fileNames]
  | cons e es =>
    have ihe := walkEntryFiles_perm p e
    have ih := walkEntriesFiles_perm p es
    rw [← Multiset.coe_eq_coe] at ihe ih ⊢
    cases e with
    | file n =>
      simp only [walkEntries, entriesFilePaths, entryFilePaths, walkEntry, fileNames,
        List.filterMap_cons, List.filterMap_nil, List.flatMap_append, List.flatMap_nil,
        List.nil_append, List.map_cons, List.map_nil,
        ← Multiset.coe_add, ← Multiset.cons_coe, ← Multiset.singleton_add,
        Multiset.coe_nil] at ihe ih ⊢
      rw [← ih]
      try abel
    | dir n es' =>
      simp only [walkEntries, entriesFilePaths, entryFilePaths, fileNames,
        List.filterMap_cons, List.filterMap_nil, List.flatMap_append, List.flatMap_nil,
        List.nil_append, List.map_cons, List.map_nil,
        ← Multiset.coe_add, ← Multiset.cons_coe, ← Multiset.singleton_add,
        Multiset.coe_nil] at ihe ih ⊢
      rw [← ih, ← ihe]
      abel

end

theorem get_tree_files_perm (root : Path) (es : List Entry) :
    (get_tree_files root es).Perm (treeFilePaths root es) := by
  have ih := walkEntriesFiles_perm root es
  rw [← Multiset.coe_eq_coe] at ih ⊢
  simp only [get_tree_files, treeFilePaths, osWalk, tripleFilePaths,
    List.flatMap_append, List.flatMap_cons, List.flatMap_nil, List.append_nil,
    ← Multiset.coe_add, ← Multiset.cons_coe, ← Multiset.singleton_add,
    Multiset.coe_nil] at ih ⊢
  rw [← ih]
  try abel

/-! ### Distinctness of the enumerated paths (for well-formed trees) -/

mutual

theorem entryPaths_shape : ∀ (p : Path) (e : Entry) (q : Path), q ∈ entryPaths p e →
    ∃ r, q = p ++ entryName e :: r
  | p, .file n, q => by
    simp only [entryPaths, entryName, List.mem_singleton]
    intro h
    exact ⟨[], by simp [h]⟩
  | p, .dir n es, q => by
    simp only [entryPaths, entryName, List.mem_cons]
    rintro (rfl | hq)
    · exact ⟨[], by simp⟩
    · obtain ⟨e', _, r, hr⟩ := entriesPaths_shape (p ++ [n]) es q hq
      exact ⟨entryName e' :: r, by simp [hr]⟩

theorem entriesPaths_shape : ∀ (p : Path) (es : List Entry) (q : Path),
    q ∈ entriesPaths p es → ∃ e' ∈ es, ∃ r, q = p ++ entryName e' :: r
  | p, [], q => by simp [entriesPaths]
  | p, e :: es, q => by
    simp only [entriesPaths, List.mem_append]
    rintro (hq | hq)
    · obtain ⟨r, hr⟩ := entryPaths_shape p e q hq
      exact ⟨e, List.mem_cons_self e es, r, hr⟩
    · obtain ⟨e', he', r, hr⟩ := entriesPaths_shape p es q hq
      exact ⟨e', List.mem_cons_of_mem e he', r, hr⟩

end

mutual

theorem entryPaths_nodup : ∀ (p : Path) (e : Entry), wfEntry e = true →
    (entryPaths p e).Nodup
  | p, .file n, _ => by simp [entryPaths]
  | p, .dir n es, h => by
    have hw : wfEntries es = true := by
      rw [wfEntry] at h; exact (Bool.and_eq_true _ _ |>.mp h).2
    simp only [entryPaths, List.nodup_cons]
    refine ⟨fun hmem => ?_, entriesPaths_nodup (p ++ [n]) es hw⟩
    obtain ⟨e', _, r, hr⟩ := entriesPaths_shape (p ++ [n]) es _ hmem
    have := congrArg List.length hr
    simp at this

theorem entriesPaths_nodup : ∀ (p : Path) (es : List Entry), wfEntries es = true →
    (entriesPaths p es).Nodup
  | p, [], _ => by simp [entriesPaths]
  | p, e :: es, h => by
    rw [wfEntries] at h
    have h1 : wfEntry e = true := by
      rcases Bool.and_eq_true _ _ |>.mp h with ⟨h', _⟩
      exact (Bool.and_eq_true _ _ |>.mp h').1
    have h2 : ((entryNames es).contains (entryName e)) = false := by
      rcases Bool.and_eq_true _ _ |>.mp h with ⟨h', _⟩
      have := (Bool.and_eq_true _ _ |>.mp h').2
      simpa using this
    have h3 : wfEntries es = true := (Bool.and_eq_true _ _ |>.mp h).2
    simp only [entriesPaths]
    rw [List.nodup_append]
    refine ⟨entryPaths_nodup p e h1, entriesPaths_nodup p es h3, ?_⟩
    intro q hq hq'
    obtain ⟨r, hr⟩ := entryPaths_shape p e q hq
    obtain ⟨e', he', r', hr'⟩ := entriesPaths_shape p es q hq'
    have hcons : entryName e :: r = entryName e' :: r' :=
      List.append_cancel_left (hr ▸ hr')
    have hname : entryName e = entryName e' := (List.cons.injEq _ _ _ _ ▸ hcons).1
    have hmem : entryName e ∈ entryNames es := hname ▸ List.mem_map_of_mem entryName he'
    rw [List.contains_eq_any_beq] at h2
    have : (entryNames es).any (fun x => entryName e == x) = true :=
      List.any_eq_true.mpr ⟨entryName e, hmem, by simp⟩
    simp [this] at h2

end

theorem treePaths_nodup (root : Path) (es : List Entry) (h : wfEntries es = true) :
    (treePaths root es).Nodup := by
  simp only [treePaths, List.nodup_cons]
  refine ⟨fun hmem => ?_, entriesPaths_nodup root es h⟩
  obtain ⟨e', _, r, hr⟩ := entriesPaths_shape root es root hmem
  have := congrArg List.length hr
  simp at this

mutual

theorem entryDirPaths_sublist : ∀ (p : Path) (e : Entry),
    (entryDirPaths p e).Sublist (entryPaths p e)
  | p, .file n => by simp [entryDirPaths, entryPaths]
  | p, .dir n es => by
    simp only [entryDirPaths, entryPaths]
    exact (entriesDirPaths_sublist (p ++ [n]) es).cons₂ _

theorem entriesDirPaths_sublist : ∀ (p : Path) (es : List Entry),
    (entriesDirPaths p es).Sublist (entriesPaths p es)
  | p, [] => by simp [entriesDirPaths, entriesPaths]
  | p, e :: es => by
    simp only [entriesDirPaths, entriesPaths]
    exact (entryDirPaths_sublist p e).append (entriesDirPaths_sublist p es)

end

theorem treeDirPaths_nodup (root : Path) (es : List Entry) (h : wfEntries es = true) :
    (treeDirPaths root es).Nodup := by
  have : (treeDirPaths root es).Sublist (treePaths root es) :=
    (entriesDirPaths_sublist root es).cons₂ root
  exact (treePaths_nodup root es h).sublist this

/-! ### The all-match filter keeps every path -/

theorem filter_star_nil (paths : List Path) :
    filter_path_objects_fnmatch paths (some ["*"]) (some []) = paths := by
  simp [filter_path_objects_fnmatch, get_default_if_none, does_path_fnmatch_patterns,
    fnmatch_star, List.filter_eq_self]

/-! ### `expand_paths_subdirs_recursive` and `copy_tree_fnmatch` -/

/-- What a path resolves to on the filesystem: nothing, a file, or a
directory with the given contents (the result of `os.path.isfile` /
`os.path.isdir` and, for a directory, of walking it). -/
inductive PathState : Type where
  | absent
  | file
  | dir (entries : List Entry)

/-- Model of `expand_paths_subdirs_recursive`: the input is the list of
(resolved) paths paired with what each resolves to; files are collected,
directories are expanded to all files below them when `expand_subdirs` is
set, everything else is skipped, and the result is deduplicated (the Python
`list(set(...))`, modelled as `List.dedup`, which keeps one occurrence of
each collected path). -/
def expand_paths_subdirs_recursive (paths : List (Path × PathState))
    (expand_subdirs : Bool) : List Path :=
  let l_path_files := paths.foldl
    (fun acc pst =>
      match pst.2 with
      | PathState.file => acc ++ [pst.1]
      | PathState.dir es => if expand_subdirs then acc ++ get_tree_files pst.1 es else acc
      | PathState.absent => acc)
    []
  l_path_files.dedup

/-- Model of `copy_tree_fnmatch`, up to the filesystem actions of the
individual copy tasks (covered by `copy_path_object_with_metadata`): validate
that the source is a directory, validate that the target is not nested inside
the source, and produce the list of copy tasks — each selected source path
paired with the string of its rewritten target path. -/
def copy_tree_fnmatch (path_source_dir : Path) (source_state : PathState)
    (path_target_dir : Path)
    (patterns_fn_match patterns_fn_unmatch : Option (List String)) :
    Except String (List (Path × String)) :=
  match source_state with
  | PathState.dir es =>
    if path_source_dir.isPrefixOf path_target_dir ∧ path_source_dir ≠ path_target_dir then
      Except.error "target directory is within the source directory"
    else
      Except.ok ((get_tree_path_fnmatch path_source_dir es
          patterns_fn_match patterns_fn_unmatch).map
        (fun p => (p, copy_tree_target_path (pathStr p) (pathStr path_source_dir)
          (pathStr path_target_dir))))
  | _ => Except.error "NotADirectoryError"

/-! ### Looking up and removing directories in a tree

The state of the base directory during a deletion pass is `some es` (its
current contents) or `none` (the base directory itself has been removed).
Subdirectories are addressed by their path relative to the base. -/

/-- The contents of the first subdirectory named `n` of a listing. -/
def findDir : List Entry → String → Option (List Entry)
  | [], _ => none
  | Entry.dir m es :: rest, n => if m = n then some es else findDir rest n
  | Entry.file _ :: rest, n => findDir rest n

/-- Navigate to the directory at the relative path `rel` and return its
contents (`none` when no such directory exists). -/
def lookup : List Entry → List String → Option (List Entry)
  | es, [] => some es
  | es, n :: rest =>
    match findDir es n with
    | some es' => lookup es' rest
    | none => none

/-- Remove the first subdirectory named `n` from a listing. -/
def eraseFirstDir : List Entry → String → List Entry
  | [], _ => []
  | Entry.dir m es :: rest, n =>
    if m = n then rest else Entry.dir m es :: eraseFirstDir rest n
  | Entry.file f :: rest, n => Entry.file f :: eraseFirstDir rest n

/-- Replace the contents of the first subdirectory named `n` of a listing. -/
def modifyFirstDir : List Entry → String → (List Entry → List Entry) → List Entry
  | [], _, _ => []
  | Entry.dir m es :: rest, n, f =>
    if m = n then Entry.dir m (f es) :: rest else Entry.dir m es :: modifyFirstDir rest n f
  | Entry.file g :: rest, n, f => Entry.file g :: modifyFirstDir rest n f

/-- Remove the directory at relative path `rel`, with its whole subtree
(the effect of `shutil.rmtree` / `rmdir` on a subdirectory of the base). -/
def removeDirAt : List Entry → List String → List Entry
  | es, [] => es
  | es, [n] => eraseFirstDir es n
  | es, n :: rest => modifyFirstDir es n (fun es' => removeDirAt es' rest)

/-- Model of `lib_path.is_directory_empty` for the directory at `rel` (an
external helper: true iff the directory has no entries; on a nonexistent
path, which the passes never query, the model answers `false`). -/
def is_directory_empty (es : List Entry) (rel : List String) : Bool :=
  match lookup es rel with
  | some l => l.isEmpty
  | none => false

/-- Model of `lib_path.has_subdirs` for the directory at `rel` (an external
helper: true iff the directory has at least one subdirectory; on a
nonexistent path, which the passes never query, the model answers
`false`). -/
def has_subdirs (es : List Entry) (rel : List String) : Bool :=
  match lookup es rel with
  | some l => l.any isDirEntry
  | none => false

/-! ### Sorting paths in reverse (descending) order

`sorted(paths, reverse=True)` on `pathlib.Path` objects orders paths by
comparing their `parts` tuples lexicographically (the root anchor first, then
the name segments); descending order therefore puts every directory before
all of its ancestors, which is the property the deletion passes rely on. -/

/-- `p` precedes `q` in a reverse-sorted path list: the `parts` of `q`
compare less-or-equal to the `parts` of `p` (lexicographically). -/
def pathDesc (p q : Path) : Prop := ("/" :: q : List String) ≤ "/" :: p

instance : DecidableRel pathDesc :=
  fun p q => inferInstanceAs (Decidable (("/" :: q : List String) ≤ "/" :: p))

instance : IsTotal Path pathDesc :=
  ⟨fun a b => le_total ("/" :: b : List String) ("/" :: a)⟩

instance : IsTrans Path pathDesc := ⟨fun _ _ _ hab hbc => le_trans hbc hab⟩

/-- Model of `sorted(paths, reverse=True)`. -/
def sortPathsDesc (l : List Path) : List Path := List.insertionSort pathDesc l

/-! ### The deletion passes -/

/-- One iteration of the loop of `remove_empty_folders_recursive`: remove the
folder when it is currently empty (`rmdir`); removing the base directory
itself ends the state. -/
def rmEmptyStep (root : Path) (st : Option (List Entry)) (folder : Path) :
    Option (List Entry) :=
  match st with
  | none => none
  | some es =>
    let rel := folder.drop root.length
    if is_directory_empty es rel then
      if rel = [] then none else some (removeDirAt es rel)
    else some es

/-- Model of `remove_empty_folders_recursive`: fail when the base directory
does not exist; otherwise visit every directory of the tree in reverse path
order (children before parents) and remove each one that is empty at its
turn. -/
def remove_empty_folders_recursive (root : Path) (st : Option (List Entry)) :
    Except String (Option (List Entry)) :=
  match st with
  | none => Except.error "path does not exist"
  | some es =>
    Except.ok ((sortPathsDesc (get_tree_dirs root es)).foldl (rmEmptyStep root) (some es))

/-- One iteration of the loop of `remove_folders_recursive_fnmatch`: delete
the folder with its whole subtree (`shutil.rmtree`) unless it still has
subdirectories. -/
def rmTreeStep (root : Path) (st : Option (List Entry)) (folder : Path) :
    Option (List Entry) :=
  match st with
  | none => none
  | some es =>
    let rel := folder.drop root.length
    if has_subdirs es rel then some es
    else if rel = [] then none else some (removeDirAt es rel)

/-- `pathlib.PurePath.parts` of the absolute base directory: the root anchor
`/` followed by the name segments. -/
def parts (root : Path) : List String := "/" :: root

/-- Model of `remove_folders_recursive_fnmatch`: fail when the base directory
does not exist; fail with a configuration error when the base directory is
too shallow for `minimal_depth`; otherwise visit the filtered directories in
reverse path order and `rmtree` each one that has no subdirectories left.
The first component is the raised error (if any), the second the resulting
state of the base directory. -/
def remove_folders_recursive_fnmatch (root : Path) (st : Option (List Entry))
    (patterns_fn_match patterns_fn_unmatch : Option (List String))
    (minimal_depth : Nat) : Option String × Option (List Entry) :=
  match st with
  | none => (some "path does not exist", none)
  | some es =>
    if (parts root).length < minimal_depth + 1 then
      (some "you want to delete subfolders - minimal depth setting prevents that", some es)
    else
      (none,
        (sortPathsDesc (get_tree_dirs_fnmatch root es
            patterns_fn_match patterns_fn_unmatch)).foldl (rmTreeStep root) (some es))

/-! ### Lemmas about lookup and removal -/

theorem lookup_append (a b : List String) :
    ∀ es : List Entry, lookup es (a ++ b) =
      match lookup es a with
      | some l => lookup l b
      | none => none := by
  induction a with
  | nil => intro es; simp [lookup]
  | cons n a ih =>
    intro es
    simp only [List.cons_append, lookup]
    cases findDir es n with
    | none => rfl
    | some es' => exact ih es'

theorem findDir_eraseFirstDir_ne (es : List Entry) (n m : String) (h : m ≠ n) :
    findDir (eraseFirstDir es n) m = findDir es m := by
  induction es with
  | nil => rfl
  | cons e rest ih =>
    cases e with
    | file f => simp [eraseFirstDir, findDir, ih]
    | dir d des =>
      by_cases hd : d = n
      · subst hd
        rw [eraseFirstDir, if_pos rfl, findDir, if_neg (fun hdm => h hdm.symm)]
      · rw [eraseFirstDir, if_neg hd]
        by_cases hdm : d = m
        · simp [findDir, hdm]
        · simp [findDir, hdm, ih]

theorem findDir_modifyFirstDir_ne (es : List Entry) (n m : String)
    (f : List Entry → List Entry) (h : m ≠ n) :
    findDir (modifyFirstDir es n f) m = findDir es m := by
  induction es with
  | nil => rfl
  | cons e rest ih =>
    cases e with
    | file g => simp [modifyFirstDir, findDir, ih]
    | dir d des =>
      by_cases hd : d = n
      · subst hd
        rw [modifyFirstDir, if_pos rfl, findDir, if_neg (fun hdm => h hdm.symm),
          findDir, if_neg (fun hdm => h hdm.symm)]
      · rw [modifyFirstDir, if_neg hd]
        by_cases hdm : d = m
        · simp [findDir, hdm]
        · simp [findDir, hdm, ih]

theorem findDir_modifyFirstDir_eq (es : List Entry) (n : String)
    (f : List Entry → List Entry) :
    findDir (modifyFirstDir es n f) n = (findDir es n).map f := by
  induction es with
  | nil => rfl
  | cons e rest ih =>
    cases e with
    | file g => simp [modifyFirstDir, findDir, ih]
    | dir d des =>
      by_cases hd : d = n
      · rw [modifyFirstDir, if_pos hd, findDir, if_pos hd, findDir, if_pos hd]
        rfl
      · rw [modifyFirstDir, if_neg hd, findDir, if_neg hd, findDir, if_neg hd]
        exact ih

theorem any_isDirEntry_of_findDir (es : List Entry) (x : String) (l : List Entry)
    (h : findDir es x = some l) : es.any isDirEntry = true := by
  induction es with
  | nil => simp [findDir] at h
  | cons e rest ih =>
    cases e with
    | file f =>
      rw [findDir] at h
      simp [isDirEntry, ih h]
    | dir d des => simp [isDirEntry]

theorem lookup_removeDirAt_isSome (c : List String) :
    ∀ (es : List Entry) (rel : List String), (lookup es rel).isSome = true →
      ¬ (c <+: rel) → (lookup (removeDirAt es c) rel).isSome = true := by
  induction c with
  | nil => intro es rel _ hnp; exact absurd (List.nil_prefix) hnp
  | cons n c' ih =>
    intro es rel hs hnp
    rcases rel with _ | ⟨m, r⟩
    · simp [lookup]
    · by_cases hnm : n = m
      · subst hnm
        have hnpr : ¬ (c' <+: r) := fun hpr =>
          hnp (List.cons_prefix_cons.mpr ⟨rfl, hpr⟩)
        cases c' with
        | nil => exact absurd (List.cons_prefix_cons.mpr ⟨rfl, List.nil_prefix⟩) hnp
        | cons k c'' =>
          simp only [removeDirAt, lookup]
          rw [findDir_modifyFirstDir_eq]
          simp only [lookup] at hs
          cases hfd : findDir es n with
          | none => rw [hfd] at hs; simp at hs
          | some es₀ =>
            rw [hfd] at hs
            simp only [hfd, Option.map_some']
            exact ih es₀ r hs hnpr
      · cases c' with
        | nil =>
          simp only [removeDirAt, lookup]
          rw [findDir_eraseFirstDir_ne es n m (fun hmn => hnm hmn.symm)]
          simp only [lookup] at hs
          exact hs
        | cons k c'' =>
          simp only [removeDirAt, lookup]
          rw [findDir_modifyFirstDir_ne es n m _ (fun hmn => hnm hmn.symm)]
          simp only [lookup] at hs
          exact hs

theorem has_subdirs_of_descendant (es : List Entry) (c : List String) (x : String)
    (r : List String) (h : (lookup es (c ++ x :: r)).isSome = true) :
    has_subdirs es c = true := by
  rw [lookup_append] at h
  cases hl : lookup es c with
  | none => rw [hl] at h; simp at h
  | some l =>
    rw [hl] at h
    rw [has_subdirs, hl]
    simp only [lookup] at h
    cases hfd : findDir l x with
    | none => rw [hfd] at h; simp at h
    | some l' => exact any_isDirEntry_of_findDir l x l' hfd

theorem lookup_isSome_of_append (es : List Entry) (a b : List String)
    (h : (lookup es (a ++ b)).isSome = true) : (lookup es a).isSome = true := by
  rw [lookup_append] at h
  cases hl : lookup es a with
  | none => rw [hl] at h; simp at h
  | some l => simp

theorem mem_filter_unmatch_false (paths : List Path) (m uo : Option (List String))
    (q : Path) (h : q ∈ filter_path_objects_fnmatch paths m uo) :
    does_path_fnmatch_patterns q (get_default_if_none uo []) = false := by
  simp only [filter_path_objects_fnmatch, List.mem_filter, Bool.and_eq_true,
    Bool.not_eq_true'] at h
  exact h.2.2

theorem get_tree_dirs_extends_root (root : Path) (es : List Entry) :
    ∀ q ∈ get_tree_dirs root es, ∃ rel, q = root ++ rel := by
  intro q hq
  rw [(get_tree_dirs_perm root es).mem_iff] at hq
  rcases List.mem_cons.mp hq with rfl | hq
  · exact ⟨[], by simp⟩
  · obtain ⟨e', _, r, hr⟩ :=
      entriesPaths_shape root es q ((entriesDirPaths_sublist root es).subset hq)
    exact ⟨entryName e' :: r, hr⟩

/-! ### The safety invariant of `remove_folders_recursive_fnmatch` -/

theorem rmTree_fold_preserves (root : Path) (u' : List String) :
    ∀ (cands : List Path) (es : List Entry) (E : List String),
      (∀ q ∈ cands, does_path_fnmatch_patterns q u' = false) →
      (∀ q ∈ cands, ∃ rel, q = root ++ rel) →
      does_path_fnmatch_patterns (root ++ E) u' = true →
      (lookup es E).isSome = true →
      ∃ es', cands.foldl (rmTreeStep root) (some es) = some es'
        ∧ (lookup es' E).isSome = true := by
  intro cands
  induction cands with
  | nil => intro es E _ _ _ hE; exact ⟨es, rfl, hE⟩
  | cons c cs ih =>
    intro es E hu hroot hexcl hE
    obtain ⟨relc, rfl⟩ := hroot c (List.mem_cons_self c cs)
    have hcu : does_path_fnmatch_patterns (root ++ relc) u' = false :=
      hu _ (List.mem_cons_self _ _)
    have hstep : rmTreeStep root (some es) (root ++ relc) =
        (if has_subdirs es relc then some es
          else if relc = [] then none else some (removeDirAt es relc)) := by
      simp [rmTreeStep, List.drop_left]
    rw [List.foldl_cons, hstep]
    by_cases hsub : has_subdirs es relc = true
    · rw [if_pos hsub]
      exact ih es E (fun q hq => hu q (List.mem_cons_of_mem _ hq))
        (fun q hq => hroot q (List.mem_cons_of_mem _ hq)) hexcl hE
    · rw [if_neg hsub]
      have hnp : ¬ (relc <+: E) := by
        intro hpr
        obtain ⟨t, ht⟩ := hpr
        cases t with
        | nil =>
          rw [List.append_nil] at ht
          rw [ht] at hcu
          rw [hcu] at hexcl
          exact Bool.false_ne_true hexcl
        | cons x r =>
          rw [← ht] at hE
          exact hsub (has_subdirs_of_descendant es relc x r hE)
      have hrelc : relc ≠ [] := by
        intro hnil
        subst hnil
        cases E with
        | nil =>
          rw [hcu] at hexcl
          exact Bool.false_ne_true hexcl
        | cons x r =>
          exact hsub (has_subdirs_of_descendant es [] x r hE)
      rw [if_neg hrelc]
      exact ih (removeDirAt es relc) E (fun q hq => hu q (List.mem_cons_of_mem _ hq))
        (fun q hq => hroot q (List.mem_cons_of_mem _ hq)) hexcl
        (lookup_removeDirAt_isSome relc es E hE hnp)

/-! ### Facts about well-formed listings, `findDir` and removal -/

theorem rmEmpty_fold_none (root : Path) :
    ∀ R : List Path, R.foldl (rmEmptyStep root) none = none := by
  intro R
  induction R with
  | nil => rfl
  | cons p t ih => rw [List.foldl_cons]; exact ih

theorem is_directory_empty_iff (es : List Entry) (rel : List String) :
    is_directory_empty es rel = true ↔ lookup es rel = some [] := by
  rw [is_directory_empty]
  cases h : lookup es rel with
  | none => simp
  | some l => simp [List.isEmpty_iff]

theorem findDir_mem_names (es : List Entry) (n : String) (l : List Entry)
    (h : findDir es n = some l) : n ∈ entryNames es := by
  induction es with
  | nil => simp [findDir] at h
  | cons e rest ih =>
    cases e with
    | file f =>
      rw [findDir] at h
      simp only [entryNames, List.map_cons]
      exact List.mem_cons_of_mem _ (ih h)
    | dir d des =>
      rw [findDir] at h
      by_cases hd : d = n
      · simp only [entryNames, List.map_cons, entryName]
        exact hd ▸ List.mem_cons_self _ _
      · rw [if_neg hd] at h
        simp only [entryNames, List.map_cons]
        exact List.mem_cons_of_mem _ (ih h)

theorem findDir_none_of_not_mem (es : List Entry) (n : String)
    (h : n ∉ entryNames es) : findDir es n = none := by
  cases hfd : findDir es n with
  | none => rfl
  | some l => exact absurd (findDir_mem_names es n l hfd) h

theorem findDir_mem_entry (es : List Entry) (n : String) (l : List Entry)
    (h : findDir es n = some l) : Entry.dir n l ∈ es := by
  induction es with
  | nil => simp [findDir] at h
  | cons e rest ih =>
    cases e with
    | file f =>
      rw [findDir] at h
      exact List.mem_cons_of_mem _ (ih h)
    | dir d des =>
      rw [findDir] at h
      by_cases hd : d = n
      · rw [if_pos hd] at h
        cases h
        exact hd ▸ List.mem_cons_self _ _
      · rw [if_neg hd] at h
        exact List.mem_cons_of_mem _ (ih h)

theorem wfEntries_cons_iff (e : Entry) (es : List Entry) :
    wfEntries (e :: es) = true ↔
      wfEntry e = true ∧ entryName e ∉ entryNames es ∧ wfEntries es = true := by
  rw [wfEntries]
  simp only [Bool.and_eq_true, Bool.not_eq_true', and_assoc, and_congr_right_iff]
  intro _
  constructor
  · rintro ⟨hc, hw⟩
    refine ⟨fun hmem => ?_, hw⟩
    rw [List.contains_eq_any_beq] at hc
    have : (entryNames es).any (fun x => entryName e == x) = true :=
      List.any_eq_true.mpr ⟨entryName e, hmem, by simp⟩
    rw [this] at hc
    cases hc
  · rintro ⟨hmem, hw⟩
    refine ⟨?_, hw⟩
    rw [List.contains_eq_any_beq]
    cases hany : (entryNames es).any (fun x => entryName e == x) with
    | false => rfl
    | true =>
      obtain ⟨x, hx, hbeq⟩ := List.any_eq_true.mp hany
      exact absurd (beq_iff_eq.mp hbeq ▸ hx) hmem

theorem findDir_wf (es : List Entry) (n : String) (l : List Entry)
    (hwf : wfEntries es = true) (h : findDir es n = some l) :
    n ≠ "" ∧ wfEntries l = true := by
  induction es with
  | nil => simp [findDir] at h
  | cons e rest ih =>
    obtain ⟨he, _, hrest⟩ := (wfEntries_cons_iff e rest).mp hwf
    cases e with
    | file f =>
      rw [findDir] at h
      exact ih hrest h
    | dir d des =>
      rw [findDir] at h
      by_cases hd : d = n
      · rw [if_pos hd] at h
        cases h
        rw [wfEntry] at he
        rcases Bool.and_eq_true _ _ |>.mp he with ⟨hne, hw⟩
        exact ⟨hd ▸ (by simpa using hne), hw⟩
      · rw [if_neg hd] at h
        exact ih hrest h

theorem findDir_eraseFirstDir_self (es : List Entry) (n : String)
    (hwf : wfEntries es = true) : findDir (eraseFirstDir es n) n = none := by
  induction es with
  | nil => rfl
  | cons e rest ih =>
    obtain ⟨_, hn, hrest⟩ := (wfEntries_cons_iff e rest).mp hwf
    cases e with
    | file f =>
      rw [eraseFirstDir, findDir]
      exact ih hrest
    | dir d des =>
      by_cases hd : d = n
      · rw [eraseFirstDir, if_pos hd]
        exact findDir_none_of_not_mem rest n (by
          simp only [entryName] at hn
          exact hd ▸ hn)
      · rw [eraseFirstDir, if_neg hd, findDir, if_neg hd]
        exact ih hrest

theorem mem_entryNames_eraseFirstDir (es : List Entry) (n m : String)
    (h : m ∈ entryNames (eraseFirstDir es n)) : m ∈ entryNames es := by
  induction es with
  | nil => simpa [eraseFirstDir] using h
  | cons e rest ih =>
    cases e with
    | file f =>
      rw [eraseFirstDir] at h
      simp only [entryNames, List.map_cons, List.mem_cons] at h ⊢
      exact h.imp id ih
    | dir d des =>
      by_cases hd : d = n
      · rw [eraseFirstDir, if_pos hd] at h
        simp only [entryNames, List.map_cons, List.mem_cons]
        exact Or.inr h
      · rw [eraseFirstDir, if_neg hd] at h
        simp only [entryNames, List.map_cons, List.mem_cons] at h ⊢
        exact h.imp id ih

theorem wf_eraseFirstDir (es : List Entry) (n : String) (hwf : wfEntries es = true) :
    wfEntries (eraseFirstDir es n) = true := by
  induction es with
  | nil => exact hwf
  | cons e rest ih =>
    obtain ⟨he, hn, hrest⟩ := (wfEntries_cons_iff e rest).mp hwf
    cases e with
    | file f =>
      rw [eraseFirstDir]
      exact (wfEntries_cons_iff _ _).mpr
        ⟨he, fun hmem => hn (mem_entryNames_eraseFirstDir rest n _ hmem), ih hrest⟩
    | dir d des =>
      by_cases hd : d = n
      · rw [eraseFirstDir, if_pos hd]
        exact hrest
      · rw [eraseFirstDir, if_neg hd]
        exact (wfEntries_cons_iff _ _).mpr
          ⟨he, fun hmem => hn (mem_entryNames_eraseFirstDir rest n _ hmem), ih hrest⟩

theorem entryNames_modifyFirstDir (es : List Entry) (n : String)
    (f : List Entry → List Entry) :
    entryNames (modifyFirstDir es n f) = entryNames es := by
  induction es with
  | nil => rfl
  | cons e rest ih =>
    cases e with
    | file g => simp [modifyFirstDir, entryNames, List.map_cons] at ih ⊢; exact ih
    | dir d des =>
      by_cases hd : d = n
      · rw [modifyFirstDir, if_pos hd]
        simp [entryNames, entryName]
      · rw [modifyFirstDir, if_neg hd]
        simp only [entryNames, List.map_cons] at ih ⊢
        rw [ih]

theorem wf_modifyFirstDir (es : List Entry) (n : String) (f : List Entry → List Entry)
    (hwf : wfEntries es = true)
    (hf : ∀ l, wfEntries l = true → wfEntries (f l) = true) :
    wfEntries (modifyFirstDir es n f) = true := by
  induction es with
  | nil => exact hwf
  | cons e rest ih =>
    obtain ⟨he, hn, hrest⟩ := (wfEntries_cons_iff e rest).mp hwf
    cases e with
    | file g =>
      rw [modifyFirstDir]
      refine (wfEntries_cons_iff _ _).mpr ⟨he, ?_, ih hrest⟩
      rw [entryNames_modifyFirstDir]
      exact hn
    | dir d des =>
      by_cases hd : d = n
      · rw [modifyFirstDir, if_pos hd]
        refine (wfEntries_cons_iff _ _).mpr ⟨?_, ?_, hrest⟩
        · rw [wfEntry] at he ⊢
          rcases Bool.and_eq_true _ _ |>.mp he with ⟨hne, hw⟩
          simp [hne, hf des hw]
        · simpa [entryName] using hn
      · rw [modifyFirstDir, if_neg hd]
        refine (wfEntries_cons_iff _ _).mpr ⟨he, ?_, ih hrest⟩
        rw [entryNames_modifyFirstDir]
        exact hn

theorem wf_removeDirAt (c : List String) :
    ∀ es : List Entry, wfEntries es = true → wfEntries (removeDirAt es c) = true := by
  induction c with
  | nil => intro es h; exact h
  | cons n c' ih =>
    intro es h
    cases c' with
    | nil => exact wf_eraseFirstDir es n h
    | cons k c'' =>
      simp only [removeDirAt]
      exact wf_modifyFirstDir es n _ h (fun l hl => ih l hl)

theorem length_modifyFirstDir (es : List Entry) (n : String)
    (f : List Entry → List Entry) :
    (modifyFirstDir es n f).length = es.length := by
  induction es with
  | nil => rfl
  | cons e rest ih =>
    cases e with
    | file g => simp [modifyFirstDir, ih]
    | dir d des =>
      by_cases hd : d = n
      · simp [modifyFirstDir, hd]
      · simp [modifyFirstDir, hd, ih]

/-! ### The parts of a path grow strictly along the tree -/

theorem list_lex_lt_append_single (l : List String) (x : String) : l < l ++ [x] := by
  induction l with
  | nil => exact List.Lex.nil
  | cons y t ih => exact List.Lex.cons ih

theorem parts_lt_ext (a : Path) (x : String) :
    (("/" :: a : List String)) < "/" :: (a ++ [x]) :=
  list_lex_lt_append_single ("/" :: a) x

/-- Characterization of lookups after removing the directory at `c` (for a
well-formed tree in which `c` exists): every directory of the result already
existed, nothing under `c` remains, and the only directory whose contents can
newly have become empty is the parent of `c`. -/
theorem lookup_removeDirAt_spec (c : List String) :
    ∀ (es : List Entry) (rel : List String) (l : List Entry), c ≠ [] →
      wfEntries es = true → (lookup es c).isSome = true →
      lookup (removeDirAt es c) rel = some l →
      ¬ (c <+: rel) ∧ ∃ l₀, lookup es rel = some l₀ ∧
        (l = [] → l₀ = [] ∨ rel = c.dropLast) := by
  induction c with
  | nil => intro es rel l hc; exact absurd rfl hc
  | cons n c' ih =>
    intro es rel l _ hwf hcs hl
    cases c' with
    | nil =>
      simp only [removeDirAt] at hl
      rcases rel with _ | ⟨m, r⟩
      · simp only [lookup, Option.some.injEq] at hl
        refine ⟨?_, es, rfl, fun _ => Or.inr rfl⟩
        intro hp
        exact absurd (List.prefix_nil.mp hp) (by simp)
      · by_cases hnm : n = m
        · subst hnm
          simp only [lookup] at hl
          rw [findDir_eraseFirstDir_self es n hwf] at hl
          cases hl
        · simp only [lookup] at hl ⊢
          rw [findDir_eraseFirstDir_ne es n m (fun h => hnm h.symm)] at hl
          refine ⟨?_, l, hl, fun h0 => Or.inl h0⟩
          intro hp
          exact hnm (List.cons_prefix_cons.mp hp).1
    | cons k c'' =>
      simp only [removeDirAt] at hl
      rcases rel with _ | ⟨m, r⟩
      · simp only [lookup, Option.some.injEq] at hl
        refine ⟨?_, es, rfl, fun h0 => ?_⟩
        · intro hp
          exact absurd (List.prefix_nil.mp hp) (by simp)
        · left
          have hlen := length_modifyFirstDir es n (fun es' => removeDirAt es' (k :: c''))
          rw [hl, h0] at hlen
          exact List.length_eq_zero.mp hlen.symm
      · by_cases hnm : n = m
        · subst hnm
          simp only [lookup] at hl hcs ⊢
          rw [findDir_modifyFirstDir_eq] at hl
          cases hfd : findDir es n with
          | none => rw [hfd] at hl; simp at hl
          | some es₀ =>
            rw [hfd] at hl hcs
            simp only [Option.map_some'] at hl
            obtain ⟨_, hwf₀⟩ := findDir_wf es n es₀ hwf hfd
            obtain ⟨hnp', l₀, hl₀, hemp⟩ := ih es₀ r l (by simp) hwf₀ hcs hl
            refine ⟨?_, l₀, hl₀, fun h0 => ?_⟩
            · intro hp
              exact hnp' (List.cons_prefix_cons.mp hp).2
            · rcases hemp h0 with h | h
              · exact Or.inl h
              · right
                rw [h]
                rfl
        · simp only [lookup] at hl ⊢
          rw [findDir_modifyFirstDir_ne es n m _ (fun h => hnm h.symm)] at hl
          refine ⟨?_, l, hl, fun h0 => Or.inl h0⟩
          intro hp
          exact hnm (List.cons_prefix_cons.mp hp).1

theorem mem_entriesDirPaths_of_mem (p : Path) (es : List Entry) (e : Entry)
    (he : e ∈ es) (q : Path) (hq : q ∈ entryDirPaths p e) :
    q ∈ entriesDirPaths p es := by
  induction es with
  | nil => simp at he
  | cons e' rest ih =>
    rcases List.mem_cons.mp he with rfl | he'
    · simp only [entriesDirPaths, List.mem_append]
      exact Or.inl hq
    · simp only [entriesDirPaths, List.mem_append]
      exact Or.inr (ih he')

/-- Every directory reachable by `lookup` is enumerated by `treeDirPaths`. -/
theorem lookup_mem_treeDirPaths :
    ∀ (rel : List String) (root : Path) (es : List Entry),
      (lookup es rel).isSome = true → root ++ rel ∈ treeDirPaths root es := by
  intro rel
  induction rel with
  | nil => intro root es _; simp [treeDirPaths]
  | cons n r ih =>
    intro root es hs
    simp only [lookup] at hs
    cases hfd : findDir es n with
    | none => rw [hfd] at hs; simp at hs
    | some es₀ =>
      rw [hfd] at hs
      have hmem := ih (root ++ [n]) es₀ hs
      have hentry := findDir_mem_entry es n es₀ hfd
      simp only [treeDirPaths, List.mem_cons]
      right
      refine mem_entriesDirPaths_of_mem root es (Entry.dir n es₀) hentry _ ?_
      simp only [entryDirPaths]
      simp only [treeDirPaths] at hmem
      have hq : root ++ n :: r = (root ++ [n]) ++ r := by simp
      rw [hq]
      exact hmem

theorem lookup_mem_get_tree_dirs (root : Path) (es : List Entry) (rel : List String)
    (h : (lookup es rel).isSome = true) : root ++ rel ∈ get_tree_dirs root es :=
  ((get_tree_dirs_perm root es).mem_iff).mpr (lookup_mem_treeDirPaths rel root es h)

/-- After one pass of the remove-empty loop over a reverse-sorted,
duplicate-free schedule containing every currently empty directory (and
bounding every other directory), no directory of the resulting tree is
empty. -/
theorem rmEmpty_no_empty_after (root : Path) :
    ∀ (R : List Path) (es : List Entry),
      wfEntries es = true →
      List.Pairwise pathDesc R →
      R.Nodup →
      (∀ q ∈ R, ∃ rel', q = root ++ rel') →
      (∀ rel, lookup es rel = some [] → root ++ rel ∈ R) →
      (∀ rel l, lookup es rel = some l →
        root ++ rel ∈ R ∨
          (root ++ rel ∉ R ∧ ∀ q ∈ R, pathDesc (root ++ rel) q)) →
      ∀ esF : List Entry, R.foldl (rmEmptyStep root) (some es) = some esF →
      ∀ (rel : List String) (l : List Entry), lookup esF rel = some l → l ≠ [] := by
  intro R
  induction R with
  | nil =>
    intro es _ _ _ _ hsched _ esF hfold rel l hl hl0
    simp only [List.foldl_nil, Option.some.injEq] at hfold
    subst hfold
    subst hl0
    exact absurd (hsched rel hl) (List.not_mem_nil _)
  | cons p tail ih =>
    intro es hwf hpair hnd hext hsched hbound esF hfold rel l hl
    obtain ⟨relp, rfl⟩ := hext p (List.mem_cons_self _ _)
    obtain ⟨hpall, htailpair⟩ := List.pairwise_cons.mp hpair
    obtain ⟨hpnotin, htailnd⟩ := List.nodup_cons.mp hnd
    rw [List.foldl_cons] at hfold
    have hstep : rmEmptyStep root (some es) (root ++ relp) =
        (if is_directory_empty es relp then
          (if relp = [] then none else some (removeDirAt es relp)) else some es) := by
      simp [rmEmptyStep, List.drop_left]
    rw [hstep] at hfold
    by_cases hemp : is_directory_empty es relp = true
    · rw [if_pos hemp] at hfold
      have hlk : lookup es relp = some [] := (is_directory_empty_iff es relp).mp hemp
      by_cases hnil : relp = []
      · rw [if_pos hnil, rmEmpty_fold_none] at hfold
        cases hfold
      · rw [if_neg hnil] at hfold
        have hwf' := wf_removeDirAt relp es hwf
        have hspec : ∀ (rel' : List String) (l' : List Entry),
            lookup (removeDirAt es relp) rel' = some l' →
            ¬ (relp <+: rel') ∧ ∃ l₀, lookup es rel' = some l₀ ∧
              (l' = [] → l₀ = [] ∨ rel' = relp.dropLast) :=
          fun rel' l' h' =>
            lookup_removeDirAt_spec relp es rel' l' hnil hwf (by rw [hlk]; rfl) h'
        refine ih (removeDirAt es relp) hwf' htailpair htailnd
          (fun q hq => hext q (List.mem_cons_of_mem _ hq)) ?_ ?_ esF hfold rel l hl
        · -- every empty directory of the new tree is still scheduled
          intro rel' h'
          obtain ⟨hnp, l₀, hl₀, hcases⟩ := hspec rel' [] h'
          rcases hcases rfl with h0 | h0
          · rw [h0] at hl₀
            rcases List.mem_cons.mp (hsched rel' hl₀) with heq | htl
            · have h1 : rel' = relp := List.append_cancel_left heq
              rw [h1] at hnp
              exact absurd (List.prefix_refl relp) hnp
            · exact htl
          · rcases hbound rel' l₀ hl₀ with hmem | ⟨_, hb⟩
            · rcases List.mem_cons.mp hmem with heq | htl
              · have h1 : rel' = relp := List.append_cancel_left heq
                rw [h0] at h1
                have h2 := congrArg List.length h1
                rw [List.length_dropLast] at h2
                have hlen : relp.length ≠ 0 := fun hz => hnil (List.length_eq_zero.mp hz)
                omega
              · exact htl
            · exfalso
              have hb' := hb (root ++ relp) (List.mem_cons_self _ _)
              rw [h0] at hb'
              have hdec : root ++ relp =
                  (root ++ relp.dropLast) ++ [relp.getLast hnil] := by
                conv_lhs => rw [← List.dropLast_append_getLast hnil]
                rw [List.append_assoc]
              have hlt : (("/" :: (root ++ relp.dropLast) : List String)) <
                  "/" :: (root ++ relp) := by
                rw [hdec]
                exact parts_lt_ext (root ++ relp.dropLast) _
              exact absurd hb' (not_le_of_lt hlt)
        · -- every directory of the new tree is scheduled or already passed
          intro rel' l' h'
          obtain ⟨hnp, l₀, hl₀, _⟩ := hspec rel' l' h'
          rcases hbound rel' l₀ hl₀ with hmem | ⟨hnotin, hb⟩
          · rcases List.mem_cons.mp hmem with heq | htl
            · have h1 : rel' = relp := List.append_cancel_left heq
              rw [h1] at hnp
              exact absurd (List.prefix_refl relp) hnp
            · exact Or.inl htl
          · exact Or.inr ⟨fun hm => hnotin (List.mem_cons_of_mem _ hm),
              fun q hq => hb q (List.mem_cons_of_mem _ hq)⟩
    · rw [if_neg hemp] at hfold
      refine ih es hwf htailpair htailnd
        (fun q hq => hext q (List.mem_cons_of_mem _ hq)) ?_ ?_ esF hfold rel l hl
      · intro rel' h'
        rcases List.mem_cons.mp (hsched rel' h') with heq | htl
        · have h1 : rel' = relp := List.append_cancel_left heq
          rw [h1] at h'
          exact absurd ((is_directory_empty_iff es relp).mpr h') hemp
        · exact htl
      · intro rel' l' h'
        rcases hbound rel' l' h' with hmem | ⟨hnotin, hb⟩
        · rcases List.mem_cons.mp hmem with heq | htl
          · have h1 : rel' = relp := List.append_cancel_left heq
            subst h1
            exact Or.inr ⟨hpnotin, fun q hq => hpall q hq⟩
          · exact Or.inl htl
        · exact Or.inr ⟨fun hm => hnotin (List.mem_cons_of_mem _ hm),
            fun q hq => hb q (List.mem_cons_of_mem _ hq)⟩

/-- When no directory of the tree is empty, the remove-empty loop changes
nothing. -/
theorem rmEmpty_fold_noop (root : Path) (es₁ : List Entry)
    (h : ∀ (rel : List String) (l : List Entry), lookup es₁ rel = some l → l ≠ []) :
    ∀ R : List Path, R.foldl (rmEmptyStep root) (some es₁) = some es₁ := by
  intro R
  induction R with
  | nil => rfl
  | cons p tail ih =>
    rw [List.foldl_cons]
    have hstep : rmEmptyStep root (some es₁) p = some es₁ := by
      rw [rmEmptyStep]
      have hied : is_directory_empty es₁ (p.drop root.length) = false := by
        cases hied : is_directory_empty es₁ (p.drop root.length) with
        | false => rfl
        | true => exact absurd rfl (h _ _ ((is_directory_empty_iff _ _).mp hied))
      simp [hied]
    rw [hstep]
    exact ih

/-! ### Claim theorems on the filter, the rewriter and the copy primitive -/

/-- C1: for every sequence of paths and every pattern set, the filter
(`filter_path_objects_fnmatch`) outputs exactly those input paths that match
at least one match pattern and match no unmatch pattern; in particular a path
matching both a match and an unmatch pattern is excluded (unmatch wins). -/
theorem filter_path_objects_fnmatch_selects
    (paths : List Path) (m u : List String) (p : Path) :
    p ∈ filter_path_objects_fnmatch paths (some m) (some u) ↔
      p ∈ paths ∧ (∃ pat ∈ m, fnmatch (pathStr p) pat = true) ∧
        (∀ pat ∈ u, fnmatch (pathStr p) pat = false) := by
  simp only [filter_path_objects_fnmatch, get_default_if_none, Option.getD_some,
    List.mem_filter, Bool.and_eq_true, Bool.not_eq_true', Bool.not_eq_true,
    does_path_fnmatch_patterns, List.any_eq_true, List.any_eq_false, and_assoc]

/-- C6 counterexample: filtering with an explicitly empty (zero-length) match
pattern list does not select the same paths as filtering with `["*"]` — the
`['*']` default applies only to a `None` argument, so an empty match list
selects nothing. -/
theorem filter_empty_match_list_cex :
    filter_path_objects_fnmatch [["a"]] (some []) (some []) ≠
      filter_path_objects_fnmatch [["a"]] (some ["*"]) (some []) := by decide

/-- C6 amended: filtering with an empty match-pattern list selects no paths at
all (only an absent/`None` match argument defaults to `["*"]`, which matches
everything), and filtering with an empty unmatch-pattern list excludes
nothing. -/
theorem filter_empty_pattern_list_behaviour
    (paths : List Path) (m u : List String) (p : Path) :
    filter_path_objects_fnmatch paths (some []) (some u) = []
    ∧ filter_path_objects_fnmatch paths none (some u) =
        filter_path_objects_fnmatch paths (some ["*"]) (some u)
    ∧ (p ∈ filter_path_objects_fnmatch paths (some m) (some []) ↔
        p ∈ paths ∧ does_path_fnmatch_patterns p m = true) := by
  refine ⟨?_, rfl, ?_⟩
  · simp [filter_path_objects_fnmatch, get_default_if_none, does_path_fnmatch_patterns]
  · simp [filter_path_objects_fnmatch, get_default_if_none, List.mem_filter,
      does_path_fnmatch_patterns]

/-- C7: for every source path whose string is prefixed by the source-root
string, the path rewriter of `copy_tree_fnmatch` replaces only the first
occurrence of the source-root string with the target-root string, so the
result is the target root followed by the source path's remainder, even when
the source-root string recurs deeper in the path. -/
theorem copy_tree_target_path_rewrites (src root tgt : String)
    (h : root.data.isPrefixOf src.data = true) :
    copy_tree_target_path src root tgt =
      tgt ++ String.mk (src.data.drop root.data.length) := by
  have hdata : (tgt ++ String.mk (src.data.drop root.data.length)).data =
      tgt.data ++ src.data.drop root.data.length := by
    simp [String.data_append]
  apply String.ext
  rw [hdata]
  simp only [copy_tree_target_path, strReplaceFirst]
  rw [replaceFirstCL.eq_def, if_pos h]

/-- Witness for C7 at a concrete input where the source-root string `/a`
recurs deeper in the path `/a/b/a`. -/
theorem copy_tree_target_path_rewrites_witness :
    ("/a" : String).data.isPrefixOf ("/a/b/a" : String).data = true
    ∧ copy_tree_target_path "/a/b/a" "/a" "/t" =
        "/t" ++ String.mk (("/a/b/a" : String).data.drop ("/a" : String).data.length) :=
  ⟨by decide, copy_tree_target_path_rewrites "/a/b/a" "/a" "/t" (by decide)⟩

/-- C10: for a directory source, when the copy-empty-directories flag is
false, `copy_path_object_with_metadata` performs no filesystem action at all
(the target directory is not created and the source directory's metadata is
never copied); in this mode no call ever copies directory metadata, and the
only directory creation ever performed is of the parent of a copied file's
target. -/
theorem copy_path_object_no_empty_dirs :
    (∀ src tgt : Path, copy_path_object_with_metadata true src tgt false = [])
    ∧ (∀ (d : Bool) (src tgt s t : Path),
        FsAction.copyStat s t ∉ copy_path_object_with_metadata d src tgt false)
    ∧ (∀ (d : Bool) (src tgt : Path),
        copy_path_object_with_metadata d src tgt false = [] ∨
          copy_path_object_with_metadata d src tgt false =
            [FsAction.mkdirParents tgt.dropLast, FsAction.copyFile src tgt]) := by
  refine ⟨fun src tgt => rfl, fun d src tgt s t => ?_, fun d src tgt => ?_⟩
  · cases d <;> simp [copy_path_object_with_metadata]
  · cases d <;> simp [copy_path_object_with_metadata]

/-- Helper: the collecting fold of `expand_paths_subdirs_recursive` is a
`flatMap` over the inputs. -/
def expandOne (expand_subdirs : Bool) (pst : Path × PathState) : List Path :=
  match pst.2 with
  | PathState.file => [pst.1]
  | PathState.dir es => if expand_subdirs then get_tree_files pst.1 es else []
  | PathState.absent => []

theorem expand_foldl (b : Bool) :
    ∀ (paths : List (Path × PathState)) (acc : List Path),
      paths.foldl
        (fun acc pst =>
          match pst.2 with
          | PathState.file => acc ++ [pst.1]
          | PathState.dir es => if b then acc ++ get_tree_files pst.1 es else acc
          | PathState.absent => acc)
        acc = acc ++ paths.flatMap (expandOne b) := by
  intro paths
  induction paths with
  | nil => intro acc; simp
  | cons pst rest ih =>
    intro acc
    obtain ⟨q, st⟩ := pst
    rw [List.foldl_cons, ih]
    cases st with
    | absent => simp [expandOne]
    | file => simp [expandOne]
    | dir es => cases b <;> simp [expandOne]

theorem expand_eq_dedup_flatMap (paths : List (Path × PathState)) (b : Bool) :
    expand_paths_subdirs_recursive paths b = (paths.flatMap (expandOne b)).dedup := by
  rw [expand_paths_subdirs_recursive, expand_foldl b paths []]
  rfl

/-- C9: for every mixed list of file and directory paths,
`expand_paths_subdirs_recursive` with `expand_subdirs=true` returns the
deduplicated set consisting of every input file plus every file reachable
recursively under every input directory: no path appears more than once, and
a path is in the result exactly when it is an input file or a file below an
input directory (in particular, no directory is in the result). -/
theorem expand_to_files_spec (paths : List (Path × PathState)) (p : Path) :
    (expand_paths_subdirs_recursive paths true).Nodup
    ∧ (p ∈ expand_paths_subdirs_recursive paths true ↔
        ((p, PathState.file) ∈ paths ∨
          ∃ q es, (q, PathState.dir es) ∈ paths ∧ p ∈ treeFilePaths q es)) := by
  rw [expand_eq_dedup_flatMap]
  refine ⟨List.nodup_dedup _, ?_⟩
  rw [List.mem_dedup, List.mem_flatMap]
  constructor
  · rintro ⟨⟨q, st⟩, hin, hg⟩
    cases st with
    | absent => simp [expandOne] at hg
    | file =>
      simp only [expandOne, List.mem_singleton] at hg
      exact Or.inl (hg ▸ hin)
    | dir es =>
      simp only [expandOne, if_pos rfl] at hg
      exact Or.inr ⟨q, es, hin, ((get_tree_files_perm q es).mem_iff).mp hg⟩
  · rintro (hin | ⟨q, es, hin, hmem⟩)
    · exact ⟨(p, PathState.file), hin, by simp [expandOne]⟩
    · exact ⟨(q, PathState.dir es), hin,
        by simpa [expandOne] using ((get_tree_files_perm q es).mem_iff).mpr hmem⟩

/-- C4: for every well-formed tree, listing all paths with match patterns
`["*"]` and unmatch patterns `[]` returns every file and every directory
under the root — a permutation of the specification-side enumeration
`treePaths`, root included — with no path listed twice. -/
theorem get_tree_path_fnmatch_star_complete (root : Path) (es : List Entry)
    (h : wfEntries es = true) :
    (get_tree_path_fnmatch root es (some ["*"]) (some [])).Perm (treePaths root es)
    ∧ (get_tree_path_fnmatch root es (some ["*"]) (some [])).Nodup := by
  have hperm : (get_tree_path_fnmatch root es (some ["*"]) (some [])).Perm
      (treePaths root es) := by
    rw [get_tree_path_fnmatch, filter_star_nil]
    exact get_path_recursive_perm root es
  exact ⟨hperm, (hperm.nodup_iff).mpr (treePaths_nodup root es h)⟩

/-- Witness for C4 on a concrete two-level tree. -/
theorem get_tree_path_fnmatch_star_complete_witness :
    wfEntries [Entry.dir "d" [Entry.file "f"], Entry.file "g"] = true
    ∧ ((get_tree_path_fnmatch ["base"] [Entry.dir "d" [Entry.file "f"], Entry.file "g"]
          (some ["*"]) (some [])).Perm
        (treePaths ["base"] [Entry.dir "d" [Entry.file "f"], Entry.file "g"])
      ∧ (get_tree_path_fnmatch ["base"] [Entry.dir "d" [Entry.file "f"], Entry.file "g"]
          (some ["*"]) (some [])).Nodup) :=
  ⟨by decide, get_tree_path_fnmatch_star_complete ["base"]
    [Entry.dir "d" [Entry.file "f"], Entry.file "g"] (by decide)⟩

/-- C8: `copy_tree_fnmatch` raises before performing any filesystem action
when the source does not exist, the source is not a directory, or the target
directory is nested inside the source directory: in each of these cases the
result is an error and no copy task is produced. -/
theorem copy_tree_fnmatch_precondition_errors (src : Path) (st : PathState) (tgt : Path)
    (m u : Option (List String))
    (h : st = PathState.absent ∨ st = PathState.file ∨
      (src.isPrefixOf tgt = true ∧ src ≠ tgt)) :
    ∃ e, copy_tree_fnmatch src st tgt m u = Except.error e := by
  cases st with
  | absent => exact ⟨_, rfl⟩
  | file => exact ⟨_, rfl⟩
  | dir es =>
    rcases h with h | h | h
    · exact absurd h (by simp)
    · exact absurd h (by simp)
    · exact ⟨"target directory is within the source directory", by
        simp only [copy_tree_fnmatch, if_pos h]⟩

/-- Witness for C8 at a concrete input with the target nested inside the
source. -/
theorem copy_tree_fnmatch_precondition_errors_witness :
    (PathState.dir ([] : List Entry) = PathState.absent ∨
      PathState.dir ([] : List Entry) = PathState.file ∨
      ((["a"] : Path).isPrefixOf ["a", "b"] = true ∧ (["a"] : Path) ≠ ["a", "b"]))
    ∧ ∃ e, copy_tree_fnmatch ["a"] (PathState.dir []) ["a", "b"] none none =
        Except.error e :=
  ⟨Or.inr (Or.inr ⟨by decide, by decide⟩),
    copy_tree_fnmatch_precondition_errors ["a"] (PathState.dir []) ["a", "b"] none none
      (Or.inr (Or.inr ⟨by decide, by decide⟩))⟩

theorem mem_filter_mem_paths (paths : List Path) (m uo : Option (List String))
    (q : Path) (h : q ∈ filter_path_objects_fnmatch paths m uo) : q ∈ paths := by
  simp only [filter_path_objects_fnmatch, List.mem_filter] at h
  exact h.1

/-- C3: for every base directory whose path-segment count is below
`minimal_depth`, `remove_folders_recursive_fnmatch` fails with the fatal
configuration error and leaves the base directory's contents unchanged (no
directory list is built and nothing is deleted). -/
theorem remove_folders_minimal_depth_guard (root : Path) (es : List Entry)
    (m u : Option (List String)) (minimal_depth : Nat)
    (h : root.length < minimal_depth) :
    remove_folders_recursive_fnmatch root (some es) m u minimal_depth =
      (some "you want to delete subfolders - minimal depth setting prevents that",
        some es) := by
  have hc : (parts root).length < minimal_depth + 1 := by
    simp only [parts, List.length_cons]
    omega
  simp [remove_folders_recursive_fnmatch, if_pos hc]

/-- Witness for C3: a one-segment base directory with `minimal_depth = 5`. -/
theorem remove_folders_minimal_depth_guard_witness :
    (["home"] : Path).length < 5
    ∧ remove_folders_recursive_fnmatch ["home"] (some [Entry.file "f"]) none none 5 =
      (some "you want to delete subfolders - minimal depth setting prevents that",
        some [Entry.file "f"]) :=
  ⟨by decide,
    remove_folders_minimal_depth_guard ["home"] [Entry.file "f"] none none 5 (by decide)⟩

/-- C2: `remove_folders_recursive_fnmatch` never deletes a directory `D` that
contains, at any depth below it, a directory excluded by the unmatch
patterns: when the directory at `D ++ rest` exists and matches an unmatch
pattern, both `D` and the excluded directory still exist after the
operation. -/
theorem remove_folders_never_deletes_protected (root : Path) (es : List Entry)
    (m : Option (List String)) (u : List String) (minimal_depth : Nat)
    (D rest : List String)
    (hE : (lookup es (D ++ rest)).isSome = true)
    (hexcl : does_path_fnmatch_patterns (root ++ (D ++ rest)) u = true) :
    ∃ es', (remove_folders_recursive_fnmatch root (some es) m (some u)
        minimal_depth).2 = some es'
      ∧ (lookup es' D).isSome = true ∧ (lookup es' (D ++ rest)).isSome = true := by
  rw [remove_folders_recursive_fnmatch]
  by_cases hg : (parts root).length < minimal_depth + 1
  · rw [if_pos hg]
    exact ⟨es, rfl, lookup_isSome_of_append es D rest hE, hE⟩
  · rw [if_neg hg]
    obtain ⟨es', heq, hsome⟩ := rmTree_fold_preserves root u
      (sortPathsDesc (get_tree_dirs_fnmatch root es m (some u))) es (D ++ rest)
      (fun q hq => mem_filter_unmatch_false (get_tree_dirs root es) m (some u) q
        (((List.perm_insertionSort pathDesc _).mem_iff).mp hq))
      (fun q hq => get_tree_dirs_extends_root root es q
        (mem_filter_mem_paths (get_tree_dirs root es) m (some u) q
          (((List.perm_insertionSort pathDesc _).mem_iff).mp hq)))
      hexcl hE
    exact ⟨es', heq, lookup_isSome_of_append es' D rest hsome, hsome⟩

/-- Witness for C2: the base `/r` contains a directory `keep` matched by the
unmatch pattern `*keep*`; deleting with match `*` leaves both the base and
`keep` in place. -/
theorem remove_folders_never_deletes_protected_witness :
    ((lookup [Entry.dir "keep" []] ([] ++ ["keep"])).isSome = true
      ∧ does_path_fnmatch_patterns ((["r"] : Path) ++ ([] ++ ["keep"]))
          ["*keep*"] = true)
    ∧ ∃ es', (remove_folders_recursive_fnmatch ["r"] (some [Entry.dir "keep" []])
        (some ["*"]) (some ["*keep*"]) 0).2 = some es'
      ∧ (lookup es' []).isSome = true
      ∧ (lookup es' ([] ++ ["keep"])).isSome = true :=
  ⟨⟨by decide, by decide⟩,
    remove_folders_never_deletes_protected ["r"] [Entry.dir "keep" []]
      (some ["*"]) ["*keep*"] 0 [] ["keep"] (by decide) (by decide)⟩

/-- C5 counterexample: on an existing but empty base directory, the first run
of `remove_empty_folders_recursive` removes the base directory itself, so the
second run raises a path-does-not-exist error — running twice is not always
error-free. -/
theorem remove_empty_twice_cex :
    remove_empty_folders_recursive ["a"] (some []) = Except.ok none
    ∧ remove_empty_folders_recursive ["a"] none =
        Except.error "path does not exist" :=
  ⟨by rfl, rfl⟩

/-- C5 amended: when the first run of `remove_empty_folders_recursive` does
not remove the base directory itself, running it a second time is a no-op:
it raises no error and changes nothing. -/
theorem remove_empty_idempotent_when_base_survives (root : Path)
    (es es₁ : List Entry) (hwf : wfEntries es = true)
    (h1 : remove_empty_folders_recursive root (some es) = Except.ok (some es₁)) :
    remove_empty_folders_recursive root (some es₁) = Except.ok (some es₁) := by
  have hfold : (sortPathsDesc (get_tree_dirs root es)).foldl (rmEmptyStep root)
      (some es) = some es₁ := by
    simpa [remove_empty_folders_recursive] using h1
  have hnodupL : (sortPathsDesc (get_tree_dirs root es)).Nodup :=
    ((List.perm_insertionSort pathDesc _).nodup_iff).mpr
      (((get_tree_dirs_perm root es).nodup_iff).mpr (treeDirPaths_nodup root es hwf))
  have hnoempty : ∀ (rel : List String) (l : List Entry),
      lookup es₁ rel = some l → l ≠ [] := by
    refine rmEmpty_no_empty_after root (sortPathsDesc (get_tree_dirs root es)) es hwf
      (List.sorted_insertionSort pathDesc _) hnodupL ?_ ?_ ?_ es₁ hfold
    · intro q hq
      exact get_tree_dirs_extends_root root es q
        (((List.perm_insertionSort pathDesc _).mem_iff).mp hq)
    · intro rel hrel
      exact ((List.perm_insertionSort pathDesc _).mem_iff).mpr
        (lookup_mem_get_tree_dirs root es rel (by rw [hrel]; rfl))
    · intro rel l hrel
      exact Or.inl (((List.perm_insertionSort pathDesc _).mem_iff).mpr
        (lookup_mem_get_tree_dirs root es rel (by rw [hrel]; rfl)))
  rw [remove_empty_folders_recursive,
    rmEmpty_fold_noop root es₁ hnoempty (sortPathsDesc (get_tree_dirs root es₁))]

/-- Witness for the amended C5 on a base directory holding one file: the
first run changes nothing, and the second run is a no-op. -/
theorem remove_empty_idempotent_when_base_survives_witness :
    (wfEntries [Entry.file "f"] = true
      ∧ remove_empty_folders_recursive ["a"] (some [Entry.file "f"]) =
          Except.ok (some [Entry.file "f"]))
    ∧ remove_empty_folders_recursive ["a"] (some [Entry.file "f"]) =
        Except.ok (some [Entry.file "f"]) :=
  ⟨⟨by decide, by rfl⟩,
    remove_empty_idempotent_when_base_survives ["a"] [Entry.file "f"] [Entry.file "f"]
      (by decide) (by rfl)⟩

end LibPathTree
